import Mathlib

/-!
Verification of the heypico-test-case request-orchestration system.

The frontend components (useSocket, ChatInterface, GoogleMapDisplay) are
embedded directly from the TypeScript sources under src/frontend.  The
backend components (sliding-window admission control, fingerprint cache,
geospatial query gateway, session orchestrator) are not present in the
source tree, only their documentation; they are modelled from the
specification text.
-/

namespace Spec2Proof

/-! ## useSocket reconnection logic (src/frontend/hooks/useSocket.ts) -/

namespace UseSocket

/-- Events observed by the socket hook: a connection error, a successful
initial connect, or a successful reconnect. -/
inductive SockEvent
  | connectError
  | connectOk
  | reconnectOk
deriving DecidableEq

/-- State of the hook: the reconnectAttempts counter, the list of backoff
delays (in milliseconds) of reconnects scheduled so far, and the connected
flag. -/
structure SockState where
  attempts : Nat
  scheduled : List Nat
  connected : Bool
deriving DecidableEq

/-- maxReconnectAttempts from useSocket.ts line 11. -/
def maxReconnectAttempts : Nat := 5

/-- One event handler step, from useSocket.ts lines 23-62: connect and
reconnect reset the counter to 0; connect_error increments the counter and,
while it is at most maxReconnectAttempts, schedules a reconnect after
Math.pow(2, attempts) * 1000 milliseconds. -/
def sockStep (st : SockState) : SockEvent → SockState
  | SockEvent.connectOk => { st with connected := true, attempts := 0 }
  | SockEvent.reconnectOk => { st with connected := true, attempts := 0 }
  | SockEvent.connectError =>
      let a := st.attempts + 1
      if a ≤ maxReconnectAttempts then
        { st with connected := false, attempts := a,
                  scheduled := st.scheduled ++ [2 ^ a * 1000] }
      else
        { st with connected := false, attempts := a }

/-- Run the hook over a sequence of events. -/
def sockRun (st : SockState) (es : List SockEvent) : SockState :=
  es.foldl sockStep st

end UseSocket

/-! ## ChatInterface send path (src/frontend/components/ChatInterface.tsx) -/

namespace Chat

/-- State-mutating calls performed by handleSendMessage and the send
mutation, in program order. -/
inductive ChatAction
  | appendUser (content : String)
  | clearInput
  | setTyping (b : Bool)
  | emitMessage (content : String)
  | toastError
deriving DecidableEq

/-- JavaScript String.prototype.trim on the character list: strip leading
and trailing whitespace. -/
def trimChars (l : List Char) : List Char :=
  ((l.dropWhile Char.isWhitespace).reverse.dropWhile Char.isWhitespace).reverse

/-- JavaScript String.prototype.trim as used at ChatInterface.tsx line 122. -/
def jsTrim (s : String) : String := ⟨trimChars s.data⟩

/-- handleSendMessage (ChatInterface.tsx lines 121-130) composed with the
mutation function (lines 88-119): trim the input; bail out when the trimmed
message is empty or a send is pending; throw (running only the onError
handler) when the socket is absent or disconnected; otherwise append the
user message, clear the input, set the typing flag and emit the message on
the socket, in that order. -/
def handleSendMessage (input : String) (pending socketPresent connected : Bool) :
    List ChatAction :=
  if jsTrim input = "" ∨ pending = true then []
  else if socketPresent = false ∨ connected = false then
    [ChatAction.setTyping false, ChatAction.toastError]
  else
    [ChatAction.appendUser (jsTrim input), ChatAction.clearInput,
     ChatAction.setTyping true, ChatAction.emitMessage (jsTrim input)]

end Chat

/-! ## GoogleMapDisplay center selection (src/frontend/components/GoogleMapDisplay.tsx) -/

namespace MapDisplay

/-- A latitude/longitude pair. -/
structure LatLng where
  lat : ℚ
  lng : ℚ
deriving DecidableEq

/-- defaultCenter from GoogleMapDisplay.tsx lines 14-17 (New York City). -/
def defaultCenter : LatLng := ⟨40.7128, -74.0060⟩

/-- The map_center field of the MapsData prop (optional). -/
structure MapsData where
  map_center : Option LatLng
deriving DecidableEq

/-- The center passed to the GoogleMap component, from line 213:
mapsData?.map_center || userLocation || defaultCenter.  A JavaScript object
is always truthy, so the fallback fires exactly when the optional value is
absent. -/
def displayedCenter (mapsData : Option MapsData) (userLocation : Option LatLng) :
    LatLng :=
  match mapsData.bind MapsData.map_center with
  | some c => c
  | none =>
      match userLocation with
      | some u => u
      | none => defaultCenter

end MapDisplay

/-! ## Sliding-window admission control (spec section 4.1) -/

namespace Admission

/-- Configuration: window size W and limit L. -/
structure AdmitConfig where
  W : Nat
  L : Nat
deriving DecidableEq

/-- Result of an admission check. -/
inductive AdmitResult
  | allowed
  | rejected (retryAfter : Nat)
deriving DecidableEq

/-- Modelled from the spec: the admission-control module (rate limiter) is
absent from the source tree.  Pruning keeps only timestamps within the
trailing window, i.e. at least now - W (spec section 4.1: prune timestamps
older than now - W). -/
def prune (cfg : AdmitConfig) (now : Nat) (ts : List Nat) : List Nat :=
  ts.filter (fun t => decide (now - cfg.W ≤ t))

/-- Modelled from the spec: admitCheck(identity, now).  Prune; if the remaining
count is below L, record now and allow; otherwise reject with retryAfter
equal to the time until the oldest remaining timestamp exits the window,
recording nothing. -/
def admitCheck (cfg : AdmitConfig) (ts : List Nat) (now : Nat) :
    AdmitResult × List Nat :=
  if (prune cfg now ts).length < cfg.L then
    (AdmitResult.allowed, prune cfg now ts ++ [now])
  else
    (AdmitResult.rejected ((prune cfg now ts).headD now + cfg.W - now),
     prune cfg now ts)

/-- Run a sequence of admission checks for one identity, returning the
results in order and the final timestamp state. -/
def admitRun (cfg : AdmitConfig) (ts : List Nat) :
    List Nat → List AdmitResult × List Nat
  | [] => ([], ts)
  | t :: rest =>
      let p := admitCheck cfg ts t
      let q := admitRun cfg p.2 rest
      (p.1 :: q.1, q.2)

/-- The call times of the checks that were allowed, in order. -/
def allowedTimes (cfg : AdmitConfig) (ts : List Nat) : List Nat → List Nat
  | [] => []
  | t :: rest =>
      let p := admitCheck cfg ts t
      (if p.1 = AdmitResult.allowed then [t] else []) ++
        allowedTimes cfg p.2 rest

end Admission

/-! ## Fingerprint cache (spec section 4.2) -/

namespace Cache

/-- A cache entry: payload with creation and expiry instants. -/
structure CacheEntry where
  payload : String
  createdAt : Nat
  expiresAt : Nat
deriving DecidableEq

/-- Result of a cache read. -/
inductive GetResult
  | hit (payload : String)
  | miss
deriving DecidableEq

/-- Modelled from the spec: the fingerprint-cache module is absent from the
source tree.  get(fingerprint) at time now: an entry past expiresAt is
treated as Miss on read. -/
def cacheGet (m : List (String × CacheEntry)) (fp : String) (now : Nat) :
    GetResult :=
  match m.lookup fp with
  | some e => if now < e.expiresAt then GetResult.hit e.payload else GetResult.miss
  | none => GetResult.miss

/-- Modelled from the spec: put(fingerprint, payload, ttl) at time now
stores the entry with expiresAt = now + ttl; the newest write shadows any
older entry for the same fingerprint. -/
def cachePut (m : List (String × CacheEntry)) (fp payload : String)
    (now ttl : Nat) : List (String × CacheEntry) :=
  (fp, ⟨payload, now, now + ttl⟩) :: m

end Cache

/-! ## Geospatial query gateway (spec section 4.3) -/

namespace Gateway

/-- The closed error taxonomy every gateway error is normalized to. -/
inductive GatewayError
  | invalidRequest
  | providerUnavailable
  | timeout
  | rateLimitedByProvider
deriving DecidableEq

/-- Provider responses at the transport boundary: success, network error,
5xx, provider-side throttling, or a non-throttling 4xx / malformed input. -/
inductive ProviderResp
  | ok (payload : String)
  | netErr
  | http5xx
  | throttled
  | badRequest
deriving DecidableEq

/-- Transient failures per spec section 4.3: network error, 5xx,
provider-side throttling. -/
def transient : ProviderResp → Bool
  | ProviderResp.netErr => true
  | ProviderResp.http5xx => true
  | ProviderResp.throttled => true
  | _ => false

/-- Normalization of a transient failure that exhausted its retry budget. -/
def transientError : ProviderResp → GatewayError
  | ProviderResp.throttled => GatewayError.rateLimitedByProvider
  | _ => GatewayError.providerUnavailable

/-- Outcome of the retry loop: the normalized result, the number of
provider calls made, and the backoff delays scheduled between attempts. -/
structure GwOutcome where
  result : Except GatewayError String
  calls : Nat
  delays : List Nat

/-- Modelled from the spec: the gateway retry loop is absent from the
source tree.  Attempt k (1-based) with r attempts remaining: success
returns immediately; a non-transient failure fails immediately as
InvalidRequest without retry; a transient failure retries after an
exponential backoff delay of base * 2 ^ k while attempts remain, and is
normalized to ProviderUnavailable or RateLimitedByProvider once the budget
is exhausted. -/
def gwGo (provider : Nat → ProviderResp) (base : Nat) :
    Nat → Nat → GwOutcome
  | _, 0 => ⟨Except.error GatewayError.providerUnavailable, 0, []⟩
  | k, r + 1 =>
      match provider k with
      | ProviderResp.ok p => ⟨Except.ok p, 1, []⟩
      | ProviderResp.badRequest => ⟨Except.error GatewayError.invalidRequest, 1, []⟩
      | resp =>
          if r = 0 then ⟨Except.error (transientError resp), 1, []⟩
          else
            let o := gwGo provider base (k + 1) r
            ⟨o.result, o.calls + 1, base * 2 ^ k :: o.delays⟩

/-- The retry loop started at attempt 1 with the configured budget. -/
def gwResolve (provider : Nat → ProviderResp) (base maxAttempts : Nat) :
    GwOutcome :=
  gwGo provider base 1 maxAttempts

/-- Outcome of a full resolve call: result, number of provider calls, and
the cache state after the call. -/
structure ResolveOutcome where
  result : Except GatewayError String
  providerCalls : Nat
  cache : List (String × Cache.CacheEntry)

/-- Modelled from the spec: resolve(invocation).  Check the cache; on hit
return the cached payload with no provider call; on miss run the retry
loop; on success write the result to the cache with the fixed TTL before
returning it, the write being best-effort (a failed write, writeOk =
false, leaves the cache unchanged but does not fail the call). -/
def gwFullResolve (cache : List (String × Cache.CacheEntry)) (fp : String)
    (now ttl : Nat) (provider : Nat → ProviderResp) (base maxAttempts : Nat)
    (writeOk : Bool) : ResolveOutcome :=
  match Cache.cacheGet cache fp now with
  | Cache.GetResult.hit payload => ⟨Except.ok payload, 0, cache⟩
  | Cache.GetResult.miss =>
      let o := gwResolve provider base maxAttempts
      match o.result with
      | Except.ok p =>
          ⟨Except.ok p, o.calls,
           if writeOk then Cache.cachePut cache fp p now ttl else cache⟩
      | Except.error e => ⟨Except.error e, o.calls, cache⟩

end Gateway

/-! ## Session orchestrator state machine (spec sections 4.5 and 5) -/

namespace Orchestrator

/-- Status of a chat turn.  Merging is transient inside a step, so it does
not appear as a resting state. -/
inductive Status
  | streaming
  | awaitingTools
  | completed
  | failed
  | cancelled
deriving DecidableEq

/-- A terminal status: Completed, Failed or Cancelled. -/
def Status.isTerminal : Status → Bool
  | Status.completed => true
  | Status.failed => true
  | Status.cancelled => true
  | _ => false

/-- A tool invocation: dispatch id, request spec, and outcome.  none means
in flight; some r means terminal, carrying the resolved result (r = some
payload) or its absence after failure or cancellation (r = none). -/
structure Invocation where
  id : Nat
  spec : String
  outcome : Option (Option String)
deriving DecidableEq

/-- Whether an invocation has reached a terminal state. -/
def Invocation.isDone (i : Invocation) : Bool := i.outcome.isSome

/-- The final structured payload: concatenated fragment text plus the
resolved tool results in invocation (dispatch) order. -/
structure Payload where
  text : String
  results : List (Option String)
deriving DecidableEq

/-- Events flushed to the transport. -/
inductive OutEvent
  | fragment (s : String)
  | complete (p : Payload)
  | errorEv
deriving DecidableEq

/-- Whether an outgoing event is the terminal event of the turn. -/
def isTermEvent : OutEvent → Bool
  | OutEvent.complete _ => true
  | OutEvent.errorEv => true
  | _ => false

/-- Events driving one turn: model-stream events (fragment, tool call,
end, error), completion of a dispatched tool invocation, and
client-initiated cancellation. -/
inductive OrchEvent
  | frag (s : String)
  | toolCall (spec : String)
  | modelEnd
  | modelError
  | toolDone (id : Nat) (res : Option String)
  | cancel
deriving DecidableEq

/-- State of one chat turn held by the orchestrator. -/
structure TurnState where
  status : Status
  modelEnded : Bool
  fragments : List String
  invocations : List Invocation
  emitted : List OutEvent
  nextId : Nat
deriving DecidableEq

/-- A turn starts in Streaming after passing admission. -/
def initTurn : TurnState := ⟨Status.streaming, false, [], [], [], 0⟩

/-- All invocations of the turn have reached a terminal state. -/
def allDone (st : TurnState) : Bool := st.invocations.all Invocation.isDone

/-- The merged payload assembled in the Merging step. -/
def mergedPayload (st : TurnState) : Payload :=
  ⟨String.join st.fragments, st.invocations.map (fun i => i.outcome.getD none)⟩

/-- The Merging to Completed transition: flush the terminal complete event
carrying the merged payload. -/
def finishTurn (st : TurnState) : TurnState :=
  { st with status := Status.completed,
            emitted := st.emitted ++ [OutEvent.complete (mergedPayload st)] }

/-- Mark every non-terminal invocation cancelled (spec section 5,
cancellation step b). -/
def cancelInvs (l : List Invocation) : List Invocation :=
  l.map (fun i => if i.isDone then i else { i with outcome := some none })

/-- Resolve the invocation with the given id, if it is still in flight. -/
def resolveInv (l : List Invocation) (j : Nat) (res : Option String) :
    List Invocation :=
  l.map (fun i =>
    if i.id = j ∧ i.isDone = false then { i with outcome := some res } else i)

/-- Modelled from the spec: the session orchestrator is absent from the
source tree.  The event handlers of the turn state machine (spec section
4.5): a fragment is flushed immediately while streaming; a tool call is
dispatched fire-and-continue; model End merges at once when no invocation
is outstanding and otherwise moves to AwaitingTools; the last invocation
completion drives the merge itself; model Error cancels outstanding
invocations, flushes the terminal error event and fails the turn;
cancellation moves the turn to Cancelled with the same cleanup and emits
nothing. -/
def stepCore (st : TurnState) : OrchEvent → TurnState
  | OrchEvent.frag s =>
      if st.status = Status.streaming then
        { st with fragments := st.fragments ++ [s],
                  emitted := st.emitted ++ [OutEvent.fragment s] }
      else st
  | OrchEvent.toolCall spec =>
      if st.status = Status.streaming then
        { st with invocations := st.invocations ++ [⟨st.nextId, spec, none⟩],
                  nextId := st.nextId + 1 }
      else st
  | OrchEvent.modelEnd =>
      if st.status = Status.streaming then
        if allDone { st with modelEnded := true } then
          finishTurn { st with modelEnded := true }
        else { st with modelEnded := true, status := Status.awaitingTools }
      else st
  | OrchEvent.modelError =>
      { st with status := Status.failed,
                invocations := cancelInvs st.invocations,
                emitted := st.emitted ++ [OutEvent.errorEv] }
  | OrchEvent.toolDone j res =>
      if st.modelEnded ∧
          allDone { st with invocations := resolveInv st.invocations j res } then
        finishTurn { st with invocations := resolveInv st.invocations j res }
      else { st with invocations := resolveInv st.invocations j res }
  | OrchEvent.cancel =>
      { st with status := Status.cancelled,
                invocations := cancelInvs st.invocations }

/-- One step of a turn: a turn whose status is terminal ignores every
event; otherwise the event handler runs. -/
def step (st : TurnState) (e : OrchEvent) : TurnState :=
  if st.status.isTerminal then st else stepCore st e

/-- Run a turn over a sequence of events from the initial state. -/
def run (es : List OrchEvent) : TurnState := es.foldl step initTurn

/-- A model-stream script element: a text fragment or a tool call. -/
inductive ModelEv
  | mfrag (s : String)
  | mcall (spec : String)
deriving DecidableEq

/-- Interpretation of a script element as an orchestrator event. -/
def toOrchEvent : ModelEv → OrchEvent
  | ModelEv.mfrag s => OrchEvent.frag s
  | ModelEv.mcall spec => OrchEvent.toolCall spec

/-- The fragment texts of a script, in emission order. -/
def fragsOf : List ModelEv → List String
  | [] => []
  | ModelEv.mfrag s :: rest => s :: fragsOf rest
  | ModelEv.mcall _ :: rest => fragsOf rest

/-- The tool-call specs of a script, in dispatch order. -/
def callsOf : List ModelEv → List String
  | [] => []
  | ModelEv.mfrag _ :: rest => callsOf rest
  | ModelEv.mcall spec :: rest => spec :: callsOf rest

/-- The in-flight invocations created for the given specs, ids counting
from k in dispatch order. -/
def mkInvs : List String → Nat → List Invocation
  | [], _ => []
  | spec :: rest, k => ⟨k, spec, none⟩ :: mkInvs rest (k + 1)

/-- The canonical trace of a turn: the model script, then model End, then
the tool completions in the order given by the list of invocation ids. -/
def scenarioTrace (script : List ModelEv) (results : Nat → String)
    (order : List Nat) : List OrchEvent :=
  script.map toOrchEvent ++ [OrchEvent.modelEnd] ++
    order.map (fun j => OrchEvent.toolDone j (some (results j)))

end Orchestrator

/-! ## Theorems: useSocket reconnection (claim C8) -/

namespace UseSocket

/-- The delays scheduled by a run of consecutive connection errors starting
from counter value a. -/
def errDelays : Nat → Nat → List Nat
  | _, 0 => []
  | a, k + 1 =>
      (if a + 1 ≤ 5 then [2 ^ (a + 1) * 1000] else []) ++ errDelays (a + 1) k

theorem errDelays_of_ge (a k : Nat) (h : 5 ≤ a) : errDelays a k = [] := by
  induction k generalizing a with
  | zero => rfl
  | succ k ih =>
      have h1 : ¬ a + 1 ≤ 5 := by omega
      simp [errDelays, h1, ih (a + 1) (by omega)]

theorem errDelays_zero_add (m : Nat) :
    errDelays 0 (m + 5) =
      [2000, 4000, 8000, 16000, 32000] := by
  show errDelays 0 (m + 5) = _
  have h5 : errDelays 5 m = [] := errDelays_of_ge 5 m (Nat.le_refl 5)
  simp [errDelays, h5]

theorem errDelays_zero_eq (k : Nat) :
    errDelays 0 k = (List.range (min k 5)).map (fun i => 2 ^ (i + 1) * 1000) := by
  rcases le_or_lt k 5 with h | h
  · rw [Nat.min_eq_left h]
    interval_cases k <;> rfl
  · rw [Nat.min_eq_right (Nat.le_of_lt h)]
    obtain ⟨m, rfl⟩ : ∃ m, k = m + 5 := ⟨k - 5, by omega⟩
    rw [errDelays_zero_add]
    rfl

theorem sockRun_cons (st : SockState) (e : SockEvent) (es : List SockEvent) :
    sockRun st (e :: es) = sockRun (sockStep st e) es := rfl

theorem sockRun_errors_attempts (k : Nat) (st : SockState) :
    (sockRun st (List.replicate k SockEvent.connectError)).attempts =
      st.attempts + k := by
  induction k generalizing st with
  | zero => rfl
  | succ k ih =>
      rw [List.replicate_succ, sockRun_cons]
      rw [ih]
      by_cases h : st.attempts + 1 ≤ maxReconnectAttempts
      · simp only [sockStep]
        rw [if_pos h]
        show st.attempts + 1 + k = st.attempts + (k + 1)
        omega
      · simp only [sockStep]
        rw [if_neg h]
        show st.attempts + 1 + k = st.attempts + (k + 1)
        omega

theorem sockRun_errors_scheduled (k : Nat) (st : SockState) :
    (sockRun st (List.replicate k SockEvent.connectError)).scheduled =
      st.scheduled ++ errDelays st.attempts k := by
  induction k generalizing st with
  | zero => simp [sockRun, errDelays]
  | succ k ih =>
      rw [List.replicate_succ, sockRun_cons, ih]
      by_cases h : st.attempts + 1 ≤ maxReconnectAttempts
      · have h5 : st.attempts + 1 ≤ 5 := h
        simp only [sockStep]
        rw [if_pos h]
        show (st.scheduled ++ [2 ^ (st.attempts + 1) * 1000]) ++
              errDelays (st.attempts + 1) k
            = st.scheduled ++ errDelays st.attempts (k + 1)
        rw [errDelays, if_pos h5, List.append_assoc]
      · have h5 : ¬ st.attempts + 1 ≤ 5 := h
        simp only [sockStep]
        rw [if_neg h]
        show st.scheduled ++ errDelays (st.attempts + 1) k
            = st.scheduled ++ errDelays st.attempts (k + 1)
        rw [errDelays, if_neg h5, List.nil_append]

/-- C8: in the useSocket hook, a run of k consecutive connection errors
starting from a reset counter leaves the failure counter at k and schedules
exactly min k 5 reconnection attempts, the nth after 2 ^ n seconds (2s, 4s,
8s, 16s, 32s in milliseconds); once the counter exceeds 5 no further
reconnect is scheduled, and a successful connect or reconnect resets the
counter to 0. -/
theorem useSocket_reconnect_backoff (s0 : List Nat) (c : Bool) (k : Nat)
    (st : SockState) :
    (sockRun ⟨0, s0, c⟩ (List.replicate k SockEvent.connectError)).attempts = k
    ∧ (sockRun ⟨0, s0, c⟩ (List.replicate k SockEvent.connectError)).scheduled
        = s0 ++ (List.range (min k 5)).map (fun i => 2 ^ (i + 1) * 1000)
    ∧ (sockStep st SockEvent.connectOk).attempts = 0
    ∧ (sockStep st SockEvent.reconnectOk).attempts = 0 := by
  refine ⟨?_, ?_, rfl, rfl⟩
  · rw [sockRun_errors_attempts]
    show 0 + k = k
    omega
  · rw [sockRun_errors_scheduled]
    show s0 ++ errDelays 0 k = _
    rw [errDelays_zero_eq]

end UseSocket

/-! ## Theorems: ChatInterface send path (claim C9) -/

namespace Chat

/-- C9: a message is emitted on the socket only when the trimmed input is
non-empty, no send is pending, and the socket is present and connected;
when the socket is absent or disconnected the failed send neither appends a
user message nor clears the input; and an accepted send performs exactly
one user-message append followed by the input clear before the emit. -/
theorem chat_send_guard (input : String) (pending socketPresent connected : Bool) :
    (∀ m, ChatAction.emitMessage m ∈
        handleSendMessage input pending socketPresent connected →
      jsTrim input ≠ "" ∧ pending = false ∧ socketPresent = true ∧
        connected = true ∧ m = jsTrim input)
    ∧ ((socketPresent = false ∨ connected = false) →
        (∀ m, ChatAction.appendUser m ∉
            handleSendMessage input pending socketPresent connected)
        ∧ ChatAction.clearInput ∉
            handleSendMessage input pending socketPresent connected)
    ∧ (jsTrim input ≠ "" → pending = false → socketPresent = true →
        connected = true →
        handleSendMessage input pending socketPresent connected =
          [ChatAction.appendUser (jsTrim input), ChatAction.clearInput,
           ChatAction.setTyping true, ChatAction.emitMessage (jsTrim input)]) := by
  by_cases h1 : jsTrim input = "" ∨ pending = true
  · have he : handleSendMessage input pending socketPresent connected = [] := by
      unfold handleSendMessage
      rw [if_pos h1]
    refine ⟨?_, ?_, ?_⟩
    · intro m hm
      rw [he] at hm
      exact absurd hm (List.not_mem_nil _)
    · intro _
      refine ⟨?_, ?_⟩
      · intro m hm
        rw [he] at hm
        exact (List.not_mem_nil _) hm
      · rw [he]
        exact List.not_mem_nil _
    · intro h3 h4 _ _
      exfalso
      rcases h1 with h1 | h1
      · exact h3 h1
      · rw [h4] at h1
        exact Bool.false_ne_true h1
  · by_cases h2 : socketPresent = false ∨ connected = false
    · have he : handleSendMessage input pending socketPresent connected =
          [ChatAction.setTyping false, ChatAction.toastError] := by
        unfold handleSendMessage
        rw [if_neg h1, if_pos h2]
      refine ⟨?_, ?_, ?_⟩
      · intro m hm
        rw [he] at hm
        simp at hm
      · intro _
        refine ⟨?_, ?_⟩
        · intro m hm
          rw [he] at hm
          simp at hm
        · rw [he]
          simp
      · intro _ _ h5 h6
        exfalso
        rcases h2 with h2 | h2
        · rw [h5] at h2
          exact absurd h2 (by decide)
        · rw [h6] at h2
          exact absurd h2 (by decide)
    · have he : handleSendMessage input pending socketPresent connected =
          [ChatAction.appendUser (jsTrim input), ChatAction.clearInput,
           ChatAction.setTyping true, ChatAction.emitMessage (jsTrim input)] := by
        unfold handleSendMessage
        rw [if_neg h1, if_neg h2]
      push_neg at h1 h2
      have hp : pending = false := by
        cases pending
        · rfl
        · exact absurd rfl h1.2
      have hs : socketPresent = true := by
        cases socketPresent
        · exact absurd rfl h2.1
        · rfl
      have hc : connected = true := by
        cases connected
        · exact absurd rfl h2.2
        · rfl
      refine ⟨?_, ?_, ?_⟩
      · intro m hm
        rw [he] at hm
        simp at hm
        exact ⟨h1.1, hp, hs, hc, hm⟩
      · intro hcon
        exfalso
        rcases hcon with hcon | hcon
        · rw [hs] at hcon
          exact absurd hcon (by decide)
        · rw [hc] at hcon
          exact absurd hcon (by decide)
      · intro _ _ _ _
        exact he

/-- C9 witness: a concrete accepted send. -/
theorem chat_send_guard_witness :
    handleSendMessage " hi " false true true =
      [ChatAction.appendUser "hi", ChatAction.clearInput,
       ChatAction.setTyping true, ChatAction.emitMessage "hi"] := by
  have h := (chat_send_guard " hi " false true true).2.2
    (by decide) rfl rfl rfl
  rw [h]
  rfl

end Chat

/-! ## Theorems: GoogleMapDisplay center priority (claim C10) -/

namespace MapDisplay

/-- C10: the rendered center follows the fixed priority map_center, then
user location, then the New York City default (40.7128, -74.0060). -/
theorem map_center_priority :
    (∀ (md : MapsData) (uc : Option LatLng) (c : LatLng),
      md.map_center = some c → displayedCenter (some md) uc = c)
    ∧ (∀ (md : Option MapsData) (uc : Option LatLng) (u : LatLng),
        md.bind MapsData.map_center = none → uc = some u →
        displayedCenter md uc = u)
    ∧ displayedCenter none none = ⟨40.7128, -74.0060⟩ := by
  refine ⟨?_, ?_, rfl⟩
  · intro md uc c h
    simp [displayedCenter, h]
  · intro md uc u h hu
    simp [displayedCenter, h, hu]

/-- C10 witness: concrete instances of all three priority cases. -/
theorem map_center_priority_witness :
    displayedCenter (some ⟨some ⟨1, 2⟩⟩) (some ⟨3, 4⟩) = (⟨1, 2⟩ : LatLng)
    ∧ displayedCenter none (some ⟨3, 4⟩) = (⟨3, 4⟩ : LatLng)
    ∧ displayedCenter none none = ⟨40.7128, -74.0060⟩ :=
  ⟨map_center_priority.1 ⟨some ⟨1, 2⟩⟩ (some ⟨3, 4⟩) ⟨1, 2⟩ rfl,
   map_center_priority.2.1 none (some ⟨3, 4⟩) ⟨3, 4⟩ rfl rfl,
   map_center_priority.2.2⟩

end MapDisplay

/-! ## Theorems: sliding-window admission control (claim C2) -/

namespace Admission

theorem prune_prune (cfg : AdmitConfig) (n1 n2 : Nat) (h : n1 ≤ n2)
    (l : List Nat) : prune cfg n2 (prune cfg n1 l) = prune cfg n2 l := by
  unfold prune
  rw [List.filter_filter]
  apply List.filter_congr
  intro x _
  by_cases hb : n2 - cfg.W ≤ x
  · have h1 : n1 - cfg.W ≤ x := by omega
    simp [hb, h1]
  · simp [hb]

theorem prune_append (cfg : AdmitConfig) (n : Nat) (l1 l2 : List Nat) :
    prune cfg n (l1 ++ l2) = prune cfg n l1 ++ prune cfg n l2 :=
  List.filter_append l1 l2

theorem prune_singleton_self (cfg : AdmitConfig) (t : Nat) :
    prune cfg t [t] = [t] := by
  have h : t - cfg.W ≤ t := by omega
  simp [prune, h]

theorem chain_le_getLastD (l : List Nat) :
    ∀ a, List.Chain (· ≤ ·) a l → a ≤ l.getLastD a := by
  induction l with
  | nil => intro a _; exact Nat.le_refl a
  | cons b l ih =>
      intro a h
      rw [List.chain_cons] at h
      rw [List.getLastD_cons]
      exact Nat.le_trans h.1 (ih b h.2)

theorem chain_all_le (l : List Nat) :
    ∀ a, List.Chain (· ≤ ·) a l → ∀ x ∈ l, a ≤ x := by
  induction l with
  | nil => intro a _ x hx; exact absurd hx (List.not_mem_nil x)
  | cons b l ih =>
      intro a h x hx
      rw [List.chain_cons] at h
      rcases List.mem_cons.mp hx with rfl | hx
      · exact h.1
      · exact Nat.le_trans h.1 (ih b h.2 x hx)

theorem chain_zero_of_chain' (l : List Nat) (h : List.Chain' (· ≤ ·) l) :
    List.Chain (· ≤ ·) 0 l := by
  cases l with
  | nil => exact List.Chain.nil
  | cons a l => exact List.chain_cons.mpr ⟨Nat.zero_le a, h⟩

theorem getLastD_le_of (l : List Nat) (t : Nat) :
    ∀ d, d ≤ t → (∀ x ∈ l, x ≤ t) → l.getLastD d ≤ t := by
  induction l with
  | nil => intro d hd _; exact hd
  | cons b l ih =>
      intro d _ h
      rw [List.getLastD_cons]
      exact ih b (h b (List.mem_cons_self b l)) fun x hx =>
        h x (List.mem_cons_of_mem b hx)

theorem admitRun_cons_fst (cfg : AdmitConfig) (ts : List Nat) (t : Nat)
    (rest : List Nat) :
    (admitRun cfg ts (t :: rest)).1 =
      (admitCheck cfg ts t).1 :: (admitRun cfg (admitCheck cfg ts t).2 rest).1 := rfl

theorem admitRun_cons_snd (cfg : AdmitConfig) (ts : List Nat) (t : Nat)
    (rest : List Nat) :
    (admitRun cfg ts (t :: rest)).2 =
      (admitRun cfg (admitCheck cfg ts t).2 rest).2 := rfl

theorem allowedTimes_cons (cfg : AdmitConfig) (ts : List Nat) (t : Nat)
    (rest : List Nat) :
    allowedTimes cfg ts (t :: rest) =
      (if (admitCheck cfg ts t).1 = AdmitResult.allowed then [t] else []) ++
        allowedTimes cfg (admitCheck cfg ts t).2 rest := rfl

theorem admit_allowed_eq (cfg : AdmitConfig) (ts : List Nat) (now : Nat)
    (h : (prune cfg now ts).length < cfg.L) :
    admitCheck cfg ts now = (AdmitResult.allowed, prune cfg now ts ++ [now]) := by
  unfold admitCheck
  rw [if_pos h]

theorem admit_rejected_eq (cfg : AdmitConfig) (ts : List Nat) (now : Nat)
    (h : ¬ (prune cfg now ts).length < cfg.L) :
    admitCheck cfg ts now =
      (AdmitResult.rejected ((prune cfg now ts).headD now + cfg.W - now),
       prune cfg now ts) := by
  unfold admitCheck
  rw [if_neg h]

theorem admit_state_len (cfg : AdmitConfig) (ts : List Nat) (now : Nat)
    (h : ts.length ≤ cfg.L) : ((admitCheck cfg ts now).2).length ≤ cfg.L := by
  by_cases hk : (prune cfg now ts).length < cfg.L
  · rw [admit_allowed_eq cfg ts now hk]
    rw [List.length_append]
    simp only [List.length_singleton]
    omega
  · rw [admit_rejected_eq cfg ts now hk]
    exact Nat.le_trans (List.length_filter_le _ _) h

theorem runState_len (cfg : AdmitConfig) :
    ∀ (times ts : List Nat), ts.length ≤ cfg.L →
      ((admitRun cfg ts times).2).length ≤ cfg.L := by
  intro times
  induction times with
  | nil => intro ts h; exact h
  | cons t rest ih =>
      intro ts h
      rw [admitRun_cons_snd]
      exact ih _ (admit_state_len cfg ts t h)

theorem runState_eq (cfg : AdmitConfig) :
    ∀ (times ts : List Nat) (now0 : Nat),
      List.Chain (· ≤ ·) now0 times →
      prune cfg now0 ts = ts →
      (admitRun cfg ts times).2 =
        prune cfg (times.getLastD now0) (ts ++ allowedTimes cfg ts times) := by
  intro times
  induction times with
  | nil =>
      intro ts now0 _ hp
      show ts = prune cfg now0 (ts ++ allowedTimes cfg ts [])
      rw [show allowedTimes cfg ts [] = [] from rfl, List.append_nil, hp]
  | cons t rest ih =>
      intro ts now0 hchain hp
      rw [List.chain_cons] at hchain
      obtain ⟨h0t, hchain⟩ := hchain
      have hle : t ≤ rest.getLastD t := chain_le_getLastD rest t hchain
      rw [admitRun_cons_snd, allowedTimes_cons, List.getLastD_cons]
      by_cases hk : (prune cfg t ts).length < cfg.L
      · rw [admit_allowed_eq cfg ts t hk]
        have hpr : prune cfg t (prune cfg t ts ++ [t]) =
            prune cfg t ts ++ [t] := by
          rw [prune_append, prune_prune cfg t t (Nat.le_refl t),
            prune_singleton_self]
        rw [ih (prune cfg t ts ++ [t]) t hchain hpr]
        rw [if_pos rfl]
        show prune cfg (rest.getLastD t)
            ((prune cfg t ts ++ [t]) ++
              allowedTimes cfg (prune cfg t ts ++ [t]) rest) =
          prune cfg (rest.getLastD t)
            (ts ++ ([t] ++ allowedTimes cfg (prune cfg t ts ++ [t]) rest))
        simp only [prune_append, prune_prune cfg t (rest.getLastD t) hle,
          List.append_assoc]
      · rw [admit_rejected_eq cfg ts t hk]
        have hpr : prune cfg t (prune cfg t ts) = prune cfg t ts :=
          prune_prune cfg t t (Nat.le_refl t) ts
        rw [ih (prune cfg t ts) t hchain hpr]
        have hne : AdmitResult.rejected
            ((prune cfg t ts).headD t + cfg.W - t) ≠ AdmitResult.allowed := by
          intro hcon
          exact AdmitResult.noConfusion hcon
        rw [if_neg hne, List.nil_append, prune_append, prune_append,
          prune_prune cfg t (rest.getLastD t) hle]

theorem allowedTimes_sublist (cfg : AdmitConfig) :
    ∀ (times ts : List Nat), (allowedTimes cfg ts times).Sublist times := by
  intro times
  induction times with
  | nil => intro ts; exact List.Sublist.refl []
  | cons t rest ih =>
      intro ts
      rw [allowedTimes_cons]
      by_cases h : (admitCheck cfg ts t).1 = AdmitResult.allowed
      · rw [if_pos h, List.singleton_append]
        exact List.Sublist.cons₂ t (ih _)
      · rw [if_neg h, List.nil_append]
        exact List.Sublist.cons t (ih _)

theorem allowedTimes_append (cfg : AdmitConfig) :
    ∀ (l1 l2 ts : List Nat),
      allowedTimes cfg ts (l1 ++ l2) =
        allowedTimes cfg ts l1 ++
          allowedTimes cfg (admitRun cfg ts l1).2 l2 := by
  intro l1
  induction l1 with
  | nil => intro l2 ts; rfl
  | cons t l1 ih =>
      intro l2 ts
      rw [List.cons_append, allowedTimes_cons, allowedTimes_cons,
        ih l2 (admitCheck cfg ts t).2, admitRun_cons_snd, List.append_assoc]

theorem sorted_dropWhile_gt (t : Nat) :
    ∀ (times : List Nat), List.Chain' (· ≤ ·) times →
      ∀ x ∈ times.dropWhile (fun y => decide (y ≤ t)), t < x := by
  intro times
  induction times with
  | nil =>
      intro _ x hx
      rw [List.dropWhile_nil] at hx
      exact absurd hx (List.not_mem_nil x)
  | cons a l ih =>
      intro hch x hx
      rw [List.dropWhile_cons] at hx
      by_cases ha : a ≤ t
      · rw [if_pos (by simpa using ha)] at hx
        exact ih (List.Chain'.tail hch) x hx
      · rw [if_neg (by simpa using ha)] at hx
        rcases List.mem_cons.mp hx with rfl | hx
        · omega
        · have hax : a ≤ x := chain_all_le l a hch x hx
          omega

theorem allowed_mono (cfg : AdmitConfig) (times : List Nat)
    (hmono : List.Chain' (· ≤ ·) times) (t : Nat) :
    ((allowedTimes cfg [] times).filter
        (fun a => decide (t - cfg.W ≤ a) && decide (a ≤ t))).length ≤ cfg.L := by
  have hsplit := List.takeWhile_append_dropWhile
    (fun y => decide (y ≤ t)) times
  have hpw : times.Pairwise (· ≤ ·) := List.chain'_iff_pairwise.mp hmono
  have hpre : List.Chain' (· ≤ ·) (times.takeWhile (fun y => decide (y ≤ t))) :=
    List.chain'_iff_pairwise.mpr
      (List.Pairwise.sublist (List.takeWhile_sublist _) hpw)
  have hpost := sorted_dropWhile_gt t times hmono
  rw [← hsplit, allowedTimes_append, List.filter_append]
  have hnil : (allowedTimes cfg
      (admitRun cfg [] (times.takeWhile (fun y => decide (y ≤ t)))).2
      (times.dropWhile (fun y => decide (y ≤ t)))).filter
        (fun a => decide (t - cfg.W ≤ a) && decide (a ≤ t)) = [] := by
    rw [List.filter_eq_nil_iff]
    intro a ha
    have hmem : a ∈ times.dropWhile (fun y => decide (y ≤ t)) :=
      List.Sublist.mem ha (allowedTimes_sublist cfg _ _)
    have := hpost a hmem
    simp
    omega
  rw [hnil, List.append_nil]
  have hstate := runState_eq cfg
    (times.takeWhile (fun y => decide (y ≤ t))) [] 0
    (chain_zero_of_chain' _ hpre) rfl
  have hlen := runState_len cfg
    (times.takeWhile (fun y => decide (y ≤ t))) [] (Nat.zero_le _)
  rw [hstate, List.nil_append] at hlen
  have hlast : (times.takeWhile (fun y => decide (y ≤ t))).getLastD 0 ≤ t := by
    apply getLastD_le_of _ t 0 (Nat.zero_le t)
    intro x hx
    have := List.mem_takeWhile_imp hx
    simpa using this
  have hsub : ((allowedTimes cfg []
      (times.takeWhile (fun y => decide (y ≤ t)))).filter
        (fun a => decide (t - cfg.W ≤ a) && decide (a ≤ t))).Sublist
      (prune cfg ((times.takeWhile (fun y => decide (y ≤ t))).getLastD 0)
        (allowedTimes cfg [] (times.takeWhile (fun y => decide (y ≤ t))))) := by
    apply List.monotone_filter_right
    intro a ha
    rw [Bool.and_eq_true, decide_eq_true_eq, decide_eq_true_eq] at ha
    rw [decide_eq_true_eq]
    show _ - cfg.W ≤ a
    omega
  exact Nat.le_trans (List.Sublist.length_le hsub) hlen

/-- C2: for every identity, under monotone check times no trailing window
of width W contains more than L admitted requests; an Allowed call records
now after pruning expired timestamps, a Rejected call records nothing and
reports retryAfter as the time until the oldest remaining timestamp exits
the window; and 5 requests within 1 second under L = 3, W = 60s yield
Allowed for the first 3 and Rejected with retryAfter close to 60s for the
last 2 (times in milliseconds). -/
theorem admission_sliding_window (cfg : AdmitConfig) (times : List Nat)
    (hmono : List.Chain' (· ≤ ·) times) (t : Nat) :
    ((allowedTimes cfg [] times).filter
        (fun a => decide (t - cfg.W ≤ a) && decide (a ≤ t))).length ≤ cfg.L
    ∧ (∀ ts now, (prune cfg now ts).length < cfg.L →
        admitCheck cfg ts now = (AdmitResult.allowed, prune cfg now ts ++ [now]))
    ∧ (∀ ts now, ¬ (prune cfg now ts).length < cfg.L →
        admitCheck cfg ts now =
          (AdmitResult.rejected ((prune cfg now ts).headD now + cfg.W - now),
           prune cfg now ts))
    ∧ (admitRun ⟨60000, 3⟩ [] [0, 200, 400, 600, 800]).1 =
        [AdmitResult.allowed, AdmitResult.allowed, AdmitResult.allowed,
         AdmitResult.rejected 59400, AdmitResult.rejected 59200] :=
  ⟨allowed_mono cfg times hmono t,
   fun ts now h => admit_allowed_eq cfg ts now h,
   fun ts now h => admit_rejected_eq cfg ts now h,
   by decide⟩

/-- C2 witness: the window bound instantiated at the scenario inputs. -/
theorem admission_sliding_window_witness :
    ((allowedTimes ⟨60000, 3⟩ [] [0, 200, 400, 600, 800]).filter
        (fun a => decide (800 - (60000 : Nat) ≤ a) && decide (a ≤ 800))).length
      ≤ 3 :=
  (admission_sliding_window ⟨60000, 3⟩ [0, 200, 400, 600, 800]
    (by norm_num [List.chain'_cons]) 800).1

end Admission

/-! ## Theorems: fingerprint cache TTL (claim C3) -/

namespace Cache

/-- C3: a put followed by a get before the ttl of the entry has elapsed
returns Hit with the same payload; a get once the ttl has elapsed returns
Miss (an expired entry is treated as absent on read). -/
theorem cache_put_get_ttl (m : List (String × CacheEntry))
    (fp payload : String) (now ttl t : Nat) :
    (t < now + ttl →
      cacheGet (cachePut m fp payload now ttl) fp t = GetResult.hit payload)
    ∧ (now + ttl ≤ t →
      cacheGet (cachePut m fp payload now ttl) fp t = GetResult.miss) := by
  constructor
  · intro h
    simp [cacheGet, cachePut, List.lookup, h]
  · intro h
    simp [cacheGet, cachePut, List.lookup, Nat.not_lt_of_le h]

/-- C3 witness: a concrete put/get pair before and after expiry. -/
theorem cache_put_get_ttl_witness :
    cacheGet (cachePut [] "fp" "payload" 100 300) "fp" 399 =
      GetResult.hit "payload"
    ∧ cacheGet (cachePut [] "fp" "payload" 100 300) "fp" 400 =
      GetResult.miss :=
  ⟨(cache_put_get_ttl [] "fp" "payload" 100 300 399).1 (by decide),
   (cache_put_get_ttl [] "fp" "payload" 100 300 400).2 (by decide)⟩

end Cache

/-! ## Theorems: gateway retry policy and error taxonomy (claim C4) -/

namespace Gateway

theorem gwGo_calls_le (provider : Nat → ProviderResp) (base : Nat) :
    ∀ (r k : Nat), (gwGo provider base k r).calls ≤ r := by
  intro r
  induction r with
  | zero => intro k; exact Nat.le_refl 0
  | succ r ih =>
      intro k
      cases hp : provider k with
      | ok p => simp [gwGo, hp]
      | badRequest => simp [gwGo, hp]
      | netErr =>
          by_cases hr : r = 0
          · simp [gwGo, hp, hr]
          · simp only [gwGo, hp]
            rw [if_neg hr]
            have := ih (k + 1)
            simp
            omega
      | http5xx =>
          by_cases hr : r = 0
          · simp [gwGo, hp, hr]
          · simp only [gwGo, hp]
            rw [if_neg hr]
            have := ih (k + 1)
            simp
            omega
      | throttled =>
          by_cases hr : r = 0
          · simp [gwGo, hp, hr]
          · simp only [gwGo, hp]
            rw [if_neg hr]
            have := ih (k + 1)
            simp
            omega

theorem gwGo_calls_pos (provider : Nat → ProviderResp) (base : Nat) :
    ∀ (r k : Nat), 1 ≤ r → 1 ≤ (gwGo provider base k r).calls := by
  intro r
  cases r with
  | zero => intro k h; omega
  | succ r =>
      intro k _
      cases hp : provider k with
      | ok p => simp [gwGo, hp]
      | badRequest => simp [gwGo, hp]
      | netErr =>
          by_cases hr : r = 0
          · simp [gwGo, hp, hr]
          · simp only [gwGo, hp]
            rw [if_neg hr]
            show 1 ≤ (gwGo provider base (k + 1) r).calls + 1
            omega
      | http5xx =>
          by_cases hr : r = 0
          · simp [gwGo, hp, hr]
          · simp only [gwGo, hp]
            rw [if_neg hr]
            show 1 ≤ (gwGo provider base (k + 1) r).calls + 1
            omega
      | throttled =>
          by_cases hr : r = 0
          · simp [gwGo, hp, hr]
          · simp only [gwGo, hp]
            rw [if_neg hr]
            show 1 ≤ (gwGo provider base (k + 1) r).calls + 1
            omega

theorem gwGo_delays_exponential (provider : Nat → ProviderResp) (base : Nat) :
    ∀ (r k : Nat),
      (gwGo provider base k r).delays =
        (List.range ((gwGo provider base k r).calls - 1)).map
          (fun i => base * 2 ^ (k + i)) := by
  intro r
  induction r with
  | zero => intro k; rfl
  | succ r ih =>
      intro k
      cases hp : provider k with
      | ok p => simp [gwGo, hp]
      | badRequest => simp [gwGo, hp]
      | netErr =>
          by_cases hr : r = 0
          · simp [gwGo, hp, hr]
          · simp only [gwGo, hp]
            rw [if_neg hr]
            simp only [Nat.add_sub_cancel]
            rw [ih (k + 1)]
            have hpos : 1 ≤ (gwGo provider base (k + 1) r).calls :=
              gwGo_calls_pos provider base r (k + 1) (by omega)
            obtain ⟨c, hc⟩ : ∃ c, (gwGo provider base (k + 1) r).calls = c :=
              ⟨_, rfl⟩
            rw [hc]
            rw [hc] at hpos
            cases c with
            | zero => omega
            | succ c =>
                rw [Nat.succ_sub_one, List.range_succ_eq_map,
                  List.map_cons, List.map_map]
                refine congrArg₂ List.cons (by rw [Nat.add_zero]) ?_
                apply List.map_congr_left
                intro i _
                show base * 2 ^ (k + 1 + i) = base * 2 ^ (k + (i + 1))
                rw [show k + 1 + i = k + (i + 1) from by omega]
      | http5xx =>
          by_cases hr : r = 0
          · simp [gwGo, hp, hr]
          · simp only [gwGo, hp]
            rw [if_neg hr]
            simp only [Nat.add_sub_cancel]
            rw [ih (k + 1)]
            have hpos : 1 ≤ (gwGo provider base (k + 1) r).calls :=
              gwGo_calls_pos provider base r (k + 1) (by omega)
            obtain ⟨c, hc⟩ : ∃ c, (gwGo provider base (k + 1) r).calls = c :=
              ⟨_, rfl⟩
            rw [hc]
            rw [hc] at hpos
            cases c with
            | zero => omega
            | succ c =>
                rw [Nat.succ_sub_one, List.range_succ_eq_map,
                  List.map_cons, List.map_map]
                refine congrArg₂ List.cons (by rw [Nat.add_zero]) ?_
                apply List.map_congr_left
                intro i _
                show base * 2 ^ (k + 1 + i) = base * 2 ^ (k + (i + 1))
                rw [show k + 1 + i = k + (i + 1) from by omega]
      | throttled =>
          by_cases hr : r = 0
          · simp [gwGo, hp, hr]
          · simp only [gwGo, hp]
            rw [if_neg hr]
            simp only [Nat.add_sub_cancel]
            rw [ih (k + 1)]
            have hpos : 1 ≤ (gwGo provider base (k + 1) r).calls :=
              gwGo_calls_pos provider base r (k + 1) (by omega)
            obtain ⟨c, hc⟩ : ∃ c, (gwGo provider base (k + 1) r).calls = c :=
              ⟨_, rfl⟩
            rw [hc]
            rw [hc] at hpos
            cases c with
            | zero => omega
            | succ c =>
                rw [Nat.succ_sub_one, List.range_succ_eq_map,
                  List.map_cons, List.map_map]
                refine congrArg₂ List.cons (by rw [Nat.add_zero]) ?_
                apply List.map_congr_left
                intro i _
                show base * 2 ^ (k + 1 + i) = base * 2 ^ (k + (i + 1))
                rw [show k + 1 + i = k + (i + 1) from by omega]

theorem gwGo_all_transient (provider : Nat → ProviderResp) (base : Nat)
    (htr : ∀ k, transient (provider k) = true) :
    ∀ (r k : Nat), 1 ≤ r →
      (gwGo provider base k r).calls = r ∧
      (gwGo provider base k r).result =
        Except.error (transientError (provider (k + r - 1))) := by
  intro r
  induction r with
  | zero => intro k h; omega
  | succ r ih =>
      intro k _
      have hk := htr k
      cases hp : provider k with
      | ok p => rw [hp] at hk; simp [transient] at hk
      | badRequest => rw [hp] at hk; simp [transient] at hk
      | netErr =>
          by_cases hr : r = 0
          · subst hr
            simp [gwGo, hp]
          · have h1 : 1 ≤ r := by omega
            have hrec := ih (k + 1) h1
            simp only [gwGo, hp]
            rw [if_neg hr]
            constructor
            · show (gwGo provider base (k + 1) r).calls + 1 = r + 1
              have hcalls := hrec.1
              omega
            · show (gwGo provider base (k + 1) r).result = _
              rw [hrec.2]
              rw [show k + 1 + r - 1 = k + (r + 1) - 1 from by omega]
      | http5xx =>
          by_cases hr : r = 0
          · subst hr
            simp [gwGo, hp]
          · have h1 : 1 ≤ r := by omega
            have hrec := ih (k + 1) h1
            simp only [gwGo, hp]
            rw [if_neg hr]
            constructor
            · show (gwGo provider base (k + 1) r).calls + 1 = r + 1
              have hcalls := hrec.1
              omega
            · show (gwGo provider base (k + 1) r).result = _
              rw [hrec.2]
              rw [show k + 1 + r - 1 = k + (r + 1) - 1 from by omega]
      | throttled =>
          by_cases hr : r = 0
          · subst hr
            simp [gwGo, hp]
          · have h1 : 1 ≤ r := by omega
            have hrec := ih (k + 1) h1
            simp only [gwGo, hp]
            rw [if_neg hr]
            constructor
            · show (gwGo provider base (k + 1) r).calls + 1 = r + 1
              have hcalls := hrec.1
              omega
            · show (gwGo provider base (k + 1) r).result = _
              rw [hrec.2]
              rw [show k + 1 + r - 1 = k + (r + 1) - 1 from by omega]

/-- C4: transient provider failures are retried with exponential backoff up
to the fixed attempt budget (an all-transient provider consumes exactly
maxAttempts calls), a non-transient failure on the first attempt fails
immediately as InvalidRequest with a single call and no backoff, and every
error the gateway returns is one of exactly InvalidRequest,
ProviderUnavailable, Timeout, RateLimitedByProvider. -/
theorem gateway_retry_policy (provider : Nat → ProviderResp)
    (base maxAttempts : Nat) (hmax : 1 ≤ maxAttempts) :
    (gwResolve provider base maxAttempts).calls ≤ maxAttempts
    ∧ (provider 1 = ProviderResp.badRequest →
        gwResolve provider base maxAttempts =
          ⟨Except.error GatewayError.invalidRequest, 1, []⟩)
    ∧ ((∀ k, transient (provider k) = true) →
        (gwResolve provider base maxAttempts).calls = maxAttempts ∧
        (gwResolve provider base maxAttempts).result =
          Except.error (transientError (provider maxAttempts)))
    ∧ ((gwResolve provider base maxAttempts).delays =
        (List.range ((gwResolve provider base maxAttempts).calls - 1)).map
          (fun i => base * 2 ^ (1 + i)))
    ∧ (∀ e, (gwResolve provider base maxAttempts).result = Except.error e →
        e = GatewayError.invalidRequest ∨
        e = GatewayError.providerUnavailable ∨
        e = GatewayError.timeout ∨
        e = GatewayError.rateLimitedByProvider) := by
  refine ⟨gwGo_calls_le provider base maxAttempts 1, ?_, ?_, ?_, ?_⟩
  · intro hp
    obtain ⟨r, rfl⟩ : ∃ r, maxAttempts = r + 1 :=
      ⟨maxAttempts - 1, by omega⟩
    simp [gwResolve, gwGo, hp]
  · intro htr
    have h := gwGo_all_transient provider base htr maxAttempts 1 hmax
    constructor
    · exact h.1
    · show (gwGo provider base 1 maxAttempts).result = _
      rw [h.2]
      rw [show 1 + maxAttempts - 1 = maxAttempts from by omega]
  · exact gwGo_delays_exponential provider base maxAttempts 1
  · intro e _
    cases e
    · exact Or.inl rfl
    · exact Or.inr (Or.inl rfl)
    · exact Or.inr (Or.inr (Or.inl rfl))
    · exact Or.inr (Or.inr (Or.inr rfl))

/-- C4 witness: an always-throttled provider with base 500ms and 3 attempts
makes exactly 3 calls, backs off 1000ms then 2000ms, and reports
RateLimitedByProvider. -/
theorem gateway_retry_policy_witness :
    (gwResolve (fun _ => ProviderResp.throttled) 500 3).calls ≤ 3
    ∧ (gwResolve (fun _ => ProviderResp.throttled) 500 3).calls = 3
    ∧ (gwResolve (fun _ => ProviderResp.throttled) 500 3).result =
        Except.error GatewayError.rateLimitedByProvider
    ∧ (gwResolve (fun _ => ProviderResp.throttled) 500 3).delays =
        (List.range 2).map (fun i => 500 * 2 ^ (1 + i)) :=
  ⟨(gateway_retry_policy (fun _ => ProviderResp.throttled) 500 3
      (by decide)).1,
   ((gateway_retry_policy (fun _ => ProviderResp.throttled) 500 3
      (by decide)).2.2.1 (fun _ => rfl)).1,
   ((gateway_retry_policy (fun _ => ProviderResp.throttled) 500 3
      (by decide)).2.2.1 (fun _ => rfl)).2,
   (gateway_retry_policy (fun _ => ProviderResp.throttled) 500 3
      (by decide)).2.2.2.1⟩

/-- C5: a resolve whose fingerprint is cached and unexpired returns the
cached payload with no provider call and no cache change; on a miss
followed by provider success the result is written to the cache with the
fixed TTL (and is readable there) before being returned; and a failure of
the cache write leaves the result unchanged — the call still succeeds. -/
theorem gateway_cache_interaction (cache : List (String × Cache.CacheEntry))
    (fp : String) (now ttl : Nat) (provider : Nat → ProviderResp)
    (base maxAttempts : Nat) (q : String) :
    (Cache.cacheGet cache fp now = Cache.GetResult.hit q →
      ∀ writeOk, gwFullResolve cache fp now ttl provider base maxAttempts
          writeOk = ⟨Except.ok q, 0, cache⟩)
    ∧ (Cache.cacheGet cache fp now = Cache.GetResult.miss →
        (gwResolve provider base maxAttempts).result = Except.ok q →
        gwFullResolve cache fp now ttl provider base maxAttempts true =
          ⟨Except.ok q, (gwResolve provider base maxAttempts).calls,
           Cache.cachePut cache fp q now ttl⟩
        ∧ gwFullResolve cache fp now ttl provider base maxAttempts false =
          ⟨Except.ok q, (gwResolve provider base maxAttempts).calls, cache⟩)
    ∧ (Cache.cacheGet cache fp now = Cache.GetResult.miss → 0 < ttl →
        (gwResolve provider base maxAttempts).result = Except.ok q →
        Cache.cacheGet
          (gwFullResolve cache fp now ttl provider base maxAttempts
            true).cache fp now = Cache.GetResult.hit q) := by
  refine ⟨?_, ?_, ?_⟩
  · intro h writeOk
    simp [gwFullResolve, h]
  · intro hmiss hok
    constructor
    · simp [gwFullResolve, hmiss, hok]
    · simp [gwFullResolve, hmiss, hok]
  · intro hmiss httl hok
    have h : (gwFullResolve cache fp now ttl provider base maxAttempts
        true).cache = Cache.cachePut cache fp q now ttl := by
      simp [gwFullResolve, hmiss, hok]
    rw [h]
    simp [Cache.cacheGet, Cache.cachePut, List.lookup]
    omega

/-- C5 witness: a concrete miss with a successful provider call, with and
without a successful cache write, and the hit read-back. -/
theorem gateway_cache_interaction_witness :
    gwFullResolve [] "fp" 0 300 (fun _ => ProviderResp.ok "p") 1 1 true =
      ⟨Except.ok "p", 1, Cache.cachePut [] "fp" "p" 0 300⟩
    ∧ gwFullResolve [] "fp" 0 300 (fun _ => ProviderResp.ok "p") 1 1 false =
      ⟨Except.ok "p", 1, []⟩
    ∧ Cache.cacheGet
        (gwFullResolve [] "fp" 0 300 (fun _ => ProviderResp.ok "p") 1 1
          true).cache "fp" 0 = Cache.GetResult.hit "p" :=
  ⟨((gateway_cache_interaction [] "fp" 0 300 (fun _ => ProviderResp.ok "p")
      1 1 "p").2.1 rfl rfl).1,
   ((gateway_cache_interaction [] "fp" 0 300 (fun _ => ProviderResp.ok "p")
      1 1 "p").2.1 rfl rfl).2,
   (gateway_cache_interaction [] "fp" 0 300 (fun _ => ProviderResp.ok "p")
      1 1 "p").2.2 rfl (by decide) rfl⟩

end Gateway

/-! ## Theorems: orchestrator terminal event (claim C1) -/

namespace Orchestrator

/-- The invariant maintained by every turn: at most one terminal event has
been flushed, a terminal event has been flushed exactly when the turn is
Completed or Failed, and whenever a terminal event has been flushed every
invocation of the turn is terminal. -/
def TurnInv (st : TurnState) : Prop :=
  st.emitted.countP isTermEvent ≤ 1
  ∧ (st.emitted.any isTermEvent = true ↔
      (st.status = Status.completed ∨ st.status = Status.failed))
  ∧ (st.emitted.any isTermEvent = true → allDone st = true)

theorem allDone_cancelInvs (l : List Invocation) :
    (cancelInvs l).all Invocation.isDone = true := by
  rw [cancelInvs, List.all_map, List.all_eq_true]
  intro i _
  by_cases h : i.isDone = true
  · show (if i.isDone = true then i else _).isDone = true
    rw [if_pos h]
    exact h
  · show (if i.isDone = true then i else _).isDone = true
    rw [if_neg h]
    rfl

theorem countP_zero_of_any_false {p : OutEvent → Bool} (l : List OutEvent)
    (h : l.any p = false) : l.countP p = 0 := by
  rw [List.countP_eq_zero]
  intro a ha
  rw [List.any_eq_false] at h
  exact h a ha

theorem status_not_term_cases (s : Status) (h : s.isTerminal = false) :
    ¬ (s = Status.completed ∨ s = Status.failed) := by
  intro hc
  rcases hc with rfl | rfl <;> simp [Status.isTerminal] at h

theorem any_false_of_inv (st : TurnState) (hinv : TurnInv st)
    (ht : st.status.isTerminal = false) :
    st.emitted.any isTermEvent = false := by
  cases hany : st.emitted.any isTermEvent
  · rfl
  · exact absurd (hinv.2.1.mp hany) (status_not_term_cases st.status ht)

theorem step_terminal (st : TurnState) (e : OrchEvent)
    (h : st.status.isTerminal = true) : step st e = st := by
  unfold step
  rw [if_pos h]

theorem step_eq_core (st : TurnState) (e : OrchEvent)
    (h : st.status.isTerminal = false) : step st e = stepCore st e := by
  unfold step
  rw [if_neg (by rw [h]; exact Bool.false_ne_true)]

theorem turnInv_init : TurnInv initTurn := by
  refine ⟨by simp [initTurn], ?_, by simp [initTurn]⟩
  simp [initTurn]

theorem turnInv_step (st : TurnState) (e : OrchEvent) (hinv : TurnInv st) :
    TurnInv (step st e) := by
  by_cases ht : st.status.isTerminal = true
  · rw [step_terminal st e ht]
    exact hinv
  · have ht' : st.status.isTerminal = false := by
      cases h : st.status.isTerminal
      · rfl
      · exact absurd h ht
    have hany : st.emitted.any isTermEvent = false :=
      any_false_of_inv st hinv ht'
    have hcount : st.emitted.countP isTermEvent = 0 :=
      countP_zero_of_any_false st.emitted hany
    have hns := status_not_term_cases st.status ht'
    rw [step_eq_core st e ht']
    cases e with
    | frag s =>
        simp only [stepCore]
        split
        · refine ⟨?_, ?_, ?_⟩
          · show (st.emitted ++ [OutEvent.fragment s]).countP isTermEvent ≤ 1
            rw [List.countP_append, hcount]
            simp [isTermEvent]
          · show (st.emitted ++ [OutEvent.fragment s]).any isTermEvent
              = true ↔
              (st.status = Status.completed ∨ st.status = Status.failed)
            rw [List.any_append, hany]
            simp only [Bool.false_or]
            constructor
            · intro hc
              simp [isTermEvent] at hc
            · intro hc
              exact absurd hc hns
          · show (st.emitted ++ [OutEvent.fragment s]).any isTermEvent
              = true → _ = true
            rw [List.any_append, hany]
            simp only [Bool.false_or]
            intro hc
            simp [isTermEvent] at hc
        · exact hinv
    | toolCall spec =>
        simp only [stepCore]
        split
        · refine ⟨hinv.1, ?_, ?_⟩
          · show st.emitted.any isTermEvent = true ↔
              (st.status = Status.completed ∨ st.status = Status.failed)
            exact hinv.2.1
          · show st.emitted.any isTermEvent = true → _ = true
            rw [hany]
            intro hc
            exact absurd hc (by simp)
        · exact hinv
    | modelEnd =>
        simp only [stepCore]
        split
        · split
          next hd =>
            refine ⟨?_, ?_, ?_⟩
            · show (st.emitted ++ [OutEvent.complete _]).countP isTermEvent
                ≤ 1
              rw [List.countP_append, hcount]
              simp [isTermEvent]
            · show (st.emitted ++ [OutEvent.complete _]).any isTermEvent
                = true ↔
                (Status.completed = Status.completed ∨
                  Status.completed = Status.failed)
              rw [List.any_append, hany]
              simp [isTermEvent]
            · intro _
              show allDone (finishTurn { st with modelEnded := true }) = true
              exact hd
          next hd =>
            refine ⟨hinv.1, ?_, ?_⟩
            · show st.emitted.any isTermEvent = true ↔
                (Status.awaitingTools = Status.completed ∨
                  Status.awaitingTools = Status.failed)
              rw [hany]
              simp
            · show st.emitted.any isTermEvent = true → _ = true
              rw [hany]
              intro hc
              exact absurd hc (by simp)
        · exact hinv
    | modelError =>
        refine ⟨?_, ?_, ?_⟩
        · show (st.emitted ++ [OutEvent.errorEv]).countP isTermEvent ≤ 1
          rw [List.countP_append, hcount]
          simp [isTermEvent]
        · show (st.emitted ++ [OutEvent.errorEv]).any isTermEvent = true ↔
            (Status.failed = Status.completed ∨
              Status.failed = Status.failed)
          rw [List.any_append, hany]
          simp [isTermEvent]
        · intro _
          show (cancelInvs st.invocations).all Invocation.isDone = true
          exact allDone_cancelInvs st.invocations
    | toolDone j res =>
        simp only [stepCore]
        split
        next hd =>
          refine ⟨?_, ?_, ?_⟩
          · show (st.emitted ++ [OutEvent.complete _]).countP isTermEvent ≤ 1
            rw [List.countP_append, hcount]
            simp [isTermEvent]
          · show (st.emitted ++ [OutEvent.complete _]).any isTermEvent
              = true ↔
              (Status.completed = Status.completed ∨
                Status.completed = Status.failed)
            rw [List.any_append, hany]
            simp [isTermEvent]
          · intro _
            show allDone (finishTurn
              { st with invocations := resolveInv st.invocations j res })
              = true
            exact hd.2
        next hd =>
          refine ⟨hinv.1, ?_, ?_⟩
          · show st.emitted.any isTermEvent = true ↔
              (st.status = Status.completed ∨ st.status = Status.failed)
            exact hinv.2.1
          · show st.emitted.any isTermEvent = true → _ = true
            rw [hany]
            intro hc
            exact absurd hc (by simp)
    | cancel =>
        refine ⟨hinv.1, ?_, ?_⟩
        · show st.emitted.any isTermEvent = true ↔
            (Status.cancelled = Status.completed ∨
              Status.cancelled = Status.failed)
          rw [hany]
          simp
        · show st.emitted.any isTermEvent = true → _ = true
          rw [hany]
          intro hc
          exact absurd hc (by simp)

theorem turnInv_foldl (es : List OrchEvent) :
    ∀ (st : TurnState), TurnInv st → TurnInv (es.foldl step st) := by
  induction es with
  | nil => intro st h; exact h
  | cons e es ih =>
      intro st h
      rw [List.foldl_cons]
      exact ih (step st e) (turnInv_step st e h)

theorem turnInv_run (es : List OrchEvent) : TurnInv (run es) :=
  turnInv_foldl es initTurn turnInv_init

/-- C1: over every event trace, the terminal event is flushed at most once,
it is present exactly when the turn is Completed or Failed (hence exactly
once for every completed or failed turn, whatever its invocation count and
completion order), and whenever it is present every tool invocation of the
turn has already reached a terminal state — applied to every prefix of a
trace this places the terminal event strictly after the last invocation
completion. -/
theorem orchestrator_terminal_once (es : List OrchEvent) :
    (run es).emitted.countP isTermEvent ≤ 1
    ∧ ((run es).emitted.any isTermEvent = true ↔
        ((run es).status = Status.completed ∨
          (run es).status = Status.failed))
    ∧ ((run es).emitted.any isTermEvent = true → allDone (run es) = true)
    ∧ (((run es).status = Status.completed ∨
        (run es).status = Status.failed) →
        (run es).emitted.countP isTermEvent = 1) := by
  have h := turnInv_run es
  refine ⟨h.1, h.2.1, h.2.2, ?_⟩
  intro hs
  have hany := h.2.1.mpr hs
  have hpos : 0 < (run es).emitted.countP isTermEvent := by
    rw [List.countP_pos_iff]
    rw [List.any_eq_true] at hany
    obtain ⟨a, ha, hpa⟩ := hany
    exact ⟨a, ha, hpa⟩
  have h1 := h.1
  omega

/-- C1 witness: a turn with one tool invocation completing after model End
flushes exactly one terminal event. -/
theorem orchestrator_terminal_once_witness :
    (run [OrchEvent.frag "a", OrchEvent.toolCall "c", OrchEvent.modelEnd,
          OrchEvent.toolDone 0 (some "r")]).emitted.countP isTermEvent = 1
    ∧ allDone (run [OrchEvent.frag "a", OrchEvent.toolCall "c",
          OrchEvent.modelEnd, OrchEvent.toolDone 0 (some "r")]) = true :=
  ⟨(orchestrator_terminal_once [OrchEvent.frag "a", OrchEvent.toolCall "c",
      OrchEvent.modelEnd, OrchEvent.toolDone 0 (some "r")]).2.2.2
      (Or.inl (by decide)),
   (orchestrator_terminal_once [OrchEvent.frag "a", OrchEvent.toolCall "c",
      OrchEvent.modelEnd, OrchEvent.toolDone 0 (some "r")]).2.2.1
      (by decide)⟩

/-! ## Theorems: orchestrator cancellation (claim C7) -/

theorem foldl_step_terminal (es : List OrchEvent) :
    ∀ (st : TurnState), st.status.isTerminal = true →
      es.foldl step st = st := by
  induction es with
  | nil => intro st _; rfl
  | cons e es ih =>
      intro st h
      rw [List.foldl_cons, step_terminal st e h]
      exact ih st h

theorem cancel_step_emitted (st : TurnState) :
    (step st OrchEvent.cancel).emitted = st.emitted := by
  by_cases h : st.status.isTerminal = true
  · rw [step_terminal st OrchEvent.cancel h]
  · unfold step
    rw [if_neg h]
    rfl

theorem cancel_step_terminal (st : TurnState) :
    (step st OrchEvent.cancel).status.isTerminal = true := by
  by_cases h : st.status.isTerminal = true
  · rw [step_terminal st OrchEvent.cancel h]
    exact h
  · unfold step
    rw [if_neg h]
    rfl

/-- C7: cancelling a turn in any non-terminal state moves it to Cancelled;
cancelling a turn already in a terminal state changes nothing (idempotent
cancellation); and after a cancellation no event of any kind — in
particular no fragment — is appended to the transport stream, whatever
events arrive later. -/
theorem orchestrator_cancel (t1 t2 : List OrchEvent) :
    ((run t1).status.isTerminal = false →
      (step (run t1) OrchEvent.cancel).status = Status.cancelled)
    ∧ ((run t1).status.isTerminal = true →
      step (run t1) OrchEvent.cancel = run t1)
    ∧ (run (t1 ++ OrchEvent.cancel :: t2)).emitted = (run t1).emitted := by
  refine ⟨?_, ?_, ?_⟩
  · intro h
    have h' : ¬ (run t1).status.isTerminal = true := by
      rw [h]
      exact Bool.false_ne_true
    unfold step
    rw [if_neg h']
    rfl
  · intro h
    exact step_terminal (run t1) OrchEvent.cancel h
  · show ((t1 ++ OrchEvent.cancel :: t2).foldl step initTurn).emitted = _
    rw [List.foldl_append, List.foldl_cons]
    rw [foldl_step_terminal t2 _ (cancel_step_terminal (t1.foldl step initTurn))]
    exact cancel_step_emitted (t1.foldl step initTurn)

/-- C7 witness: cancelling a streaming turn moves it to Cancelled and a
fragment arriving afterwards is not emitted. -/
theorem orchestrator_cancel_witness :
    (step (run [OrchEvent.frag "a"]) OrchEvent.cancel).status =
      Status.cancelled
    ∧ (run ([OrchEvent.frag "a"] ++
        OrchEvent.cancel :: [OrchEvent.frag "b"])).emitted =
      (run [OrchEvent.frag "a"]).emitted :=
  ⟨(orchestrator_cancel [OrchEvent.frag "a"] [OrchEvent.frag "b"]).1
      (by decide),
   (orchestrator_cancel [OrchEvent.frag "a"] [OrchEvent.frag "b"]).2.2⟩

/-! ## Theorems: orchestrator fragment order and merge (claim C6) -/

/-- The invocations of base whose id lies in S, resolved with the result
assigned to their id; the others untouched. -/
def doneInvs (results : Nat → String) (S : List Nat)
    (base : List Invocation) : List Invocation :=
  base.map (fun i =>
    if i.id ∈ S then { i with outcome := some (some (results i.id)) } else i)

theorem doneInvs_nil (results : Nat → String) (base : List Invocation) :
    doneInvs results [] base = base := by
  rw [doneInvs]
  rw [show (fun i : Invocation =>
      if i.id ∈ ([] : List Nat) then
        { i with outcome := some (some (results i.id)) } else i) =
      fun i => i from ?_]
  · exact List.map_id base
  · funext i
    rw [if_neg (List.not_mem_nil i.id)]

theorem resolveInv_doneInvs (results : Nat → String) (S : List Nat)
    (base : List Invocation) (hbase : ∀ i ∈ base, i.outcome = none)
    (j : Nat) :
    resolveInv (doneInvs results S base) j (some (results j)) =
      doneInvs results (j :: S) base := by
  unfold resolveInv doneInvs
  rw [List.map_map]
  apply List.map_congr_left
  intro i hi
  have hz := hbase i hi
  simp only [Function.comp_apply]
  by_cases hS : i.id ∈ S
  · rw [if_pos hS, if_pos (List.mem_cons_of_mem j hS)]
    rw [if_neg]
    intro hc
    have h2 := hc.2
    simp [Invocation.isDone] at h2
  · by_cases hj : i.id = j
    · rw [if_neg hS]
      rw [if_pos (show i.id ∈ j :: S by
        rw [hj]; exact List.mem_cons_self j S)]
      rw [if_pos (show i.id = j ∧ i.isDone = false from
        ⟨hj, by rw [Invocation.isDone, hz]; rfl⟩)]
      rw [hj]
    · rw [if_neg hS,
        if_neg (fun hm => (List.mem_cons.mp hm).elim hj hS)]
      rw [if_neg (fun hc => hj hc.1)]

theorem doneInvs_all (results : Nat → String) (S : List Nat)
    (base : List Invocation) (hbase : ∀ i ∈ base, i.outcome = none) :
    ((doneInvs results S base).all Invocation.isDone = true) ↔
      ∀ i ∈ base, i.id ∈ S := by
  rw [doneInvs, List.all_map, List.all_eq_true]
  constructor
  · intro h i hi
    have hd := h i hi
    by_cases hS : i.id ∈ S
    · exact hS
    · exfalso
      show False
      have : Invocation.isDone (if i.id ∈ S then
          { i with outcome := some (some (results i.id)) } else i) = true := hd
      rw [if_neg hS] at this
      rw [Invocation.isDone, hbase i hi] at this
      simp at this
  · intro h i hi
    show Invocation.isDone (if i.id ∈ S then
        { i with outcome := some (some (results i.id)) } else i) = true
    rw [if_pos (h i hi)]
    rfl

theorem doneInvs_results (results : Nat → String) (S : List Nat)
    (base : List Invocation) (hcov : ∀ i ∈ base, i.id ∈ S) :
    (doneInvs results S base).map (fun i => i.outcome.getD none) =
      base.map (fun i => some (results i.id)) := by
  rw [doneInvs, List.map_map]
  apply List.map_congr_left
  intro i hi
  show ((if i.id ∈ S then
      { i with outcome := some (some (results i.id)) } else i).outcome.getD
      none) = some (results i.id)
  rw [if_pos (hcov i hi)]
  rfl

theorem mkInvs_outcome (specs : List String) :
    ∀ (k : Nat) (i : Invocation), i ∈ mkInvs specs k → i.outcome = none := by
  induction specs with
  | nil => intro k i hi; exact absurd hi (List.not_mem_nil i)
  | cons c cs ih =>
      intro k i hi
      rcases List.mem_cons.mp hi with rfl | hi
      · rfl
      · exact ih (k + 1) i hi

theorem mkInvs_id_range (specs : List String) :
    ∀ (k : Nat) (i : Invocation), i ∈ mkInvs specs k →
      k ≤ i.id ∧ i.id < k + specs.length := by
  induction specs with
  | nil => intro k i hi; exact absurd hi (List.not_mem_nil i)
  | cons c cs ih =>
      intro k i hi
      rcases List.mem_cons.mp hi with rfl | hi
      · show k ≤ k ∧ k < k + (c :: cs).length
        simp
      · have := ih (k + 1) i hi
        rw [List.length_cons]
        omega

theorem mkInvs_map_results (results : Nat → String) (specs : List String) :
    ∀ (k : Nat), (mkInvs specs k).map (fun i => some (results i.id)) =
      (List.range' k specs.length).map (fun j => some (results j)) := by
  induction specs with
  | nil => intro k; rfl
  | cons c cs ih =>
      intro k
      rw [show mkInvs (c :: cs) k = ⟨k, c, none⟩ :: mkInvs cs (k + 1)
        from rfl]
      rw [List.length_cons, List.range'_succ, List.map_cons, List.map_cons,
        ih (k + 1)]

theorem run_script (script : List ModelEv) :
    ∀ (st : TurnState), st.status = Status.streaming →
      (script.map toOrchEvent).foldl step st =
        { st with fragments := st.fragments ++ fragsOf script,
                  invocations :=
                    st.invocations ++ mkInvs (callsOf script) st.nextId,
                  emitted :=
                    st.emitted ++ (fragsOf script).map OutEvent.fragment,
                  nextId := st.nextId + (callsOf script).length } := by
  induction script with
  | nil =>
      intro st _
      show st = _
      rw [show fragsOf [] = [] from rfl, show callsOf [] = [] from rfl]
      simp [mkInvs]
  | cons ev rest ih =>
      intro st hs
      have ht : st.status.isTerminal = false := by
        rw [hs]
        rfl
      cases ev with
      | mfrag s =>
          rw [List.map_cons, List.foldl_cons, step_eq_core st _ ht]
          show ((rest.map toOrchEvent).foldl step
            (if st.status = Status.streaming then _ else st)) = _
          rw [if_pos hs]
          rw [ih { st with fragments := st.fragments ++ [s],
                           emitted :=
                             st.emitted ++ [OutEvent.fragment s] } hs]
          rw [show fragsOf (ModelEv.mfrag s :: rest) = s :: fragsOf rest
            from rfl,
            show callsOf (ModelEv.mfrag s :: rest) = callsOf rest from rfl]
          simp
      | mcall c =>
          rw [List.map_cons, List.foldl_cons, step_eq_core st _ ht]
          show ((rest.map toOrchEvent).foldl step
            (if st.status = Status.streaming then _ else st)) = _
          rw [if_pos hs]
          rw [ih { st with invocations :=
                             st.invocations ++ [⟨st.nextId, c, none⟩],
                           nextId := st.nextId + 1 } hs]
          rw [show fragsOf (ModelEv.mcall c :: rest) = fragsOf rest
            from rfl,
            show callsOf (ModelEv.mcall c :: rest) = c :: callsOf rest
            from rfl]
          rw [show mkInvs (c :: callsOf rest) st.nextId =
            ⟨st.nextId, c, none⟩ :: mkInvs (callsOf rest) (st.nextId + 1)
            from rfl]
          simp
          omega

theorem tool_phase (results : Nat → String) (base : List Invocation)
    (frags : List String)
    (hbase : ∀ i ∈ base, i.outcome = none) :
    ∀ (order S : List Nat) (em : List OutEvent) (nid : Nat),
      (∀ i ∈ base, i.id ∈ S ∨ i.id ∈ order) →
      ¬ (∀ i ∈ base, i.id ∈ S) →
      ((order.map (fun j => OrchEvent.toolDone j (some (results j)))).foldl
          step
          ⟨Status.awaitingTools, true, frags, doneInvs results S base,
           em, nid⟩).status = Status.completed ∧
      ((order.map (fun j => OrchEvent.toolDone j (some (results j)))).foldl
          step
          ⟨Status.awaitingTools, true, frags, doneInvs results S base,
           em, nid⟩).emitted =
        em ++ [OutEvent.complete ⟨String.join frags,
          base.map (fun i => some (results i.id))⟩] := by
  intro order
  induction order with
  | nil =>
      intro S em nid hcov hnotall
      exact absurd (fun i hi => (hcov i hi).resolve_right
        (fun hm => List.not_mem_nil i.id hm)) hnotall
  | cons j rest ih =>
      intro S em nid hcov hnotall
      have hstep : step
          ⟨Status.awaitingTools, true, frags, doneInvs results S base,
           em, nid⟩ (OrchEvent.toolDone j (some (results j))) =
          (if (true = true) ∧
              ((resolveInv (doneInvs results S base) j
                (some (results j))).all Invocation.isDone = true) then
            finishTurn ⟨Status.awaitingTools, true, frags,
              resolveInv (doneInvs results S base) j (some (results j)),
              em, nid⟩
          else
            ⟨Status.awaitingTools, true, frags,
             resolveInv (doneInvs results S base) j (some (results j)),
             em, nid⟩) := by
        rw [step_eq_core
          ⟨Status.awaitingTools, true, frags, doneInvs results S base,
           em, nid⟩ (OrchEvent.toolDone j (some (results j))) rfl]
        rfl
      rw [List.map_cons, List.foldl_cons, hstep,
        resolveInv_doneInvs results S base hbase j]
      by_cases hd : ∀ i ∈ base, i.id ∈ j :: S
      · rw [if_pos ⟨rfl, (doneInvs_all results (j :: S) base hbase).mpr hd⟩]
        rw [foldl_step_terminal
          (rest.map fun j => OrchEvent.toolDone j (some (results j)))
          (finishTurn ⟨Status.awaitingTools, true, frags,
            doneInvs results (j :: S) base, em, nid⟩) rfl]
        refine ⟨rfl, ?_⟩
        show em ++ [OutEvent.complete (mergedPayload
          ⟨Status.awaitingTools, true, frags,
           doneInvs results (j :: S) base, em, nid⟩)] = _
        rw [show mergedPayload
            ⟨Status.awaitingTools, true, frags,
             doneInvs results (j :: S) base, em, nid⟩ =
          ⟨String.join frags, (doneInvs results (j :: S) base).map
            (fun i => i.outcome.getD none)⟩ from rfl]
        rw [doneInvs_results results (j :: S) base hd]
      · rw [if_neg (fun hc =>
          hd ((doneInvs_all results (j :: S) base hbase).mp hc.2))]
        apply ih (j :: S) em nid
        · intro i hi
          rcases hcov i hi with hS | hm
          · exact Or.inl (List.mem_cons_of_mem j hS)
          · rcases List.mem_cons.mp hm with hij | hm
            · exact Or.inl (by rw [hij]; exact List.mem_cons_self j S)
            · exact Or.inr hm
        · exact hd

/-- C6: for every model script and every completion order that is a
permutation of the dispatched invocation ids, fragments reach the transport
exactly in model-emission order, the turn completes, and the final merged
payload is the concatenated fragment text followed by the resolved tool
results in dispatch order — the emitted sequence does not depend on the
completion order. -/
theorem orchestrator_merge_order (script : List ModelEv)
    (results : Nat → String) (order : List Nat)
    (hperm : order.Perm (List.range (callsOf script).length)) :
    (run (scenarioTrace script results order)).status = Status.completed
    ∧ (run (scenarioTrace script results order)).emitted =
        (fragsOf script).map OutEvent.fragment ++
          [OutEvent.complete ⟨String.join (fragsOf script),
            (List.range (callsOf script).length).map
              (fun j => some (results j))⟩] := by
  rw [show run (scenarioTrace script results order) =
    ((order.map (fun j => OrchEvent.toolDone j (some (results j)))).foldl
      step
      (step ((script.map toOrchEvent).foldl step initTurn)
        OrchEvent.modelEnd)) from by
      rw [run, scenarioTrace, List.foldl_append, List.foldl_append,
        List.foldl_cons, List.foldl_nil]]
  rw [run_script script initTurn rfl]
  rw [show ({ initTurn with
      fragments := initTurn.fragments ++ fragsOf script,
      invocations :=
        initTurn.invocations ++ mkInvs (callsOf script) initTurn.nextId,
      emitted :=
        initTurn.emitted ++ (fragsOf script).map OutEvent.fragment,
      nextId := initTurn.nextId + (callsOf script).length } : TurnState) =
    ⟨Status.streaming, false, fragsOf script, mkInvs (callsOf script) 0,
     (fragsOf script).map OutEvent.fragment, (callsOf script).length⟩
    from by rw [initTurn]; simp]
  rw [step_eq_core
    ⟨Status.streaming, false, fragsOf script, mkInvs (callsOf script) 0,
     (fragsOf script).map OutEvent.fragment, (callsOf script).length⟩
    OrchEvent.modelEnd rfl]
  cases hcs : callsOf script with
  | nil =>
      rw [hcs] at hperm
      have horder : order = [] :=
        List.Perm.eq_nil (by simpa using hperm)
      rw [horder]
      exact ⟨rfl, rfl⟩
  | cons c cs =>
      rw [hcs] at hperm
      have hstep : stepCore
          ⟨Status.streaming, false, fragsOf script, mkInvs (c :: cs) 0,
           (fragsOf script).map OutEvent.fragment, (c :: cs).length⟩
          OrchEvent.modelEnd =
          ⟨Status.awaitingTools, true, fragsOf script, mkInvs (c :: cs) 0,
           (fragsOf script).map OutEvent.fragment, (c :: cs).length⟩ := rfl
      rw [hstep]
      have hb : ∀ i ∈ mkInvs (c :: cs) 0, i.outcome = none :=
        fun i hi => mkInvs_outcome (c :: cs) 0 i hi
      have hcov : ∀ i ∈ mkInvs (c :: cs) 0,
          i.id ∈ ([] : List Nat) ∨ i.id ∈ order := by
        intro i hi
        refine Or.inr ?_
        have hr := mkInvs_id_range (c :: cs) 0 i hi
        have hm : i.id ∈ List.range (c :: cs).length :=
          List.mem_range.mpr (by omega)
        exact (List.Perm.mem_iff hperm).mpr hm
      have hnall : ¬ ∀ i ∈ mkInvs (c :: cs) 0, i.id ∈ ([] : List Nat) := by
        intro hall
        have h0 : (⟨0, c, none⟩ : Invocation) ∈ mkInvs (c :: cs) 0 := by
          show (⟨0, c, none⟩ : Invocation) ∈
            (⟨0, c, none⟩ : Invocation) :: mkInvs cs 1
          exact List.mem_cons_self _ _
        exact List.not_mem_nil _ (hall _ h0)
      have hstate : (⟨Status.awaitingTools, true, fragsOf script,
          mkInvs (c :: cs) 0, (fragsOf script).map OutEvent.fragment,
          (c :: cs).length⟩ : TurnState) =
          ⟨Status.awaitingTools, true, fragsOf script,
           doneInvs results [] (mkInvs (c :: cs) 0),
           (fragsOf script).map OutEvent.fragment, (c :: cs).length⟩ := by
        rw [doneInvs_nil]
      rw [hstate]
      have h := tool_phase results (mkInvs (c :: cs) 0) (fragsOf script)
        hb order [] ((fragsOf script).map OutEvent.fragment)
        (c :: cs).length hcov hnall
      refine ⟨h.1, ?_⟩
      rw [h.2, mkInvs_map_results results (c :: cs) 0,
        List.range_eq_range']

/-- C6 witness: a script with one fragment and two tool calls whose
completions arrive in reverse dispatch order still merges the results in
dispatch order. -/
theorem orchestrator_merge_order_witness :
    (run (scenarioTrace [ModelEv.mfrag "A", ModelEv.mcall "c0",
        ModelEv.mcall "c1"] (fun _ => "r") [1, 0])).status =
      Status.completed
    ∧ (run (scenarioTrace [ModelEv.mfrag "A", ModelEv.mcall "c0",
        ModelEv.mcall "c1"] (fun _ => "r") [1, 0])).emitted =
      [OutEvent.fragment "A",
       OutEvent.complete ⟨"A", [some "r", some "r"]⟩] := by
  have h := orchestrator_merge_order
    [ModelEv.mfrag "A", ModelEv.mcall "c0", ModelEv.mcall "c1"]
    (fun _ => "r") [1, 0] (by simpa using List.Perm.swap 0 1 [])
  refine ⟨h.1, ?_⟩
  rw [h.2]
  rfl

end Orchestrator

end Spec2Proof
